import Mathlib

/-!
Shallow embedding of resume-stats (`src/main.rs`), a tool that aggregates one
author's commit history across configured GitHub repositories into per-bucket
totals of matched languages, commit count and added lines.

Strings are modeled as lists of characters (`Str`).  The GitHub API, keyring,
TOML reader and progress bars are external collaborators: they are abstracted
as `Except`-valued inputs to the run model, while every piece of logic the
program itself performs (path parsing, extension extraction, classification,
aggregation, error propagation) is translated from the source.
-/

set_option autoImplicit false

abbrev Str : Type := List Char

deriving instance DecidableEq for Except

/-- Fatal error classes of the program: configuration errors (bad TOML,
malformed repository path), credential-store errors, and provider (GitHub API)
errors.  `anyhow::Error` values are abstracted to their class. -/
inductive RunError where
  | config
  | credential
  | provider
deriving DecidableEq

/-- The `RepositoryPath` struct (main.rs lines 16-21). -/
structure RepositoryPath where
  owner : Str
  repository : Str
deriving DecidableEq

/-- Model of `str::split_once`: splits at the first occurrence of `c`,
returning the parts before and after it, or `none` when `c` is absent. -/
def splitOnce (c : Char) : Str → Option (Str × Str)
  | [] => none
  | x :: xs =>
    if x = c then some ([], xs)
    else (splitOnce c xs).map fun p => (x :: p.1, p.2)

/-- `RepositoryPath::try_from` (main.rs lines 26-35): `value.split_once` at the
slash; absence of a slash is a configuration error. -/
def RepositoryPath.tryFrom (value : Str) : Except RunError RepositoryPath :=
  match splitOnce '/' value with
  | none => .error .config
  | some (owner, repository) => .ok ⟨owner, repository⟩

/-- Splits a string at every slash, keeping empty segments (used to model the
component structure of a Rust `Path`). -/
def splitSlash : Str → List Str
  | [] => [[]]
  | x :: xs =>
    if x = '/' then [] :: splitSlash xs
    else
      match splitSlash xs with
      | [] => [[x]]
      | seg :: rest => (x :: seg) :: rest

/-- Model of `Path::file_name` for Unix paths: the last normal component.
Empty segments and `.` segments are skipped (as the `Components` iterator
does); a final `..` component, or no component at all, yields `none`. -/
def fileName (p : Str) : Option Str :=
  match ((splitSlash p).filter fun seg => decide (seg ≠ [] ∧ seg ≠ ['.'])).getLast? with
  | none => none
  | some seg => if seg = ['.', '.'] then none else some seg

/-- Splits at the LAST occurrence of `c`, returning (before, after), or `none`
when `c` is absent (the `rsplitn(2, c)` step of `Path::extension`). -/
def splitLast (c : Char) : Str → Option (Str × Str)
  | [] => none
  | x :: xs =>
    match splitLast c xs with
    | some (b, a) => some (x :: b, a)
    | none => if x = c then some ([], xs) else none

/-- Model of `PathBuf::from(filename).extension()` (main.rs line 147): the
substring after the last `.` of the file name (the last path component), except
that a `.` at the start of the file name does not begin an extension, and a
file name with no `.` has no extension.  (`fileName` never returns `..`, so the
`..` special case of the Rust implementation is already handled.) -/
def extension (p : Str) : Option Str :=
  match fileName p with
  | none => none
  | some f =>
    match splitLast '.' f with
    | none => none
    | some (b, a) => if b = [] then none else some a

/-- The extension rule exactly as the specification words it, for comparison
with the source's `extension`: "the substring after the last `.` in the
filename" (no `.` anywhere means no extension). -/
def extensionSpec (p : Str) : Option Str :=
  (splitLast '.' p).map Prod.snd

/-- One changed file of a commit: filename and added-line count (the
`files` entries consumed at main.rs lines 146-156). -/
structure CommitFileChange where
  filename : Str
  additions : Nat
deriving DecidableEq

/-- The classification result: matched languages and total added lines. -/
structure ClassifiedCommit where
  matchedLanguages : Finset Str
  linesAdded : Nat
deriving DecidableEq

/-- One iteration of the per-file loop (main.rs lines 146-156) over the mutable
state `(languages, lines)`: insert the file's extension into the language set
when it is a needed language, and add the file's additions unconditionally. -/
def classifyStep (neededLanguages : Finset Str) (st : Finset Str × Nat)
    (file : CommitFileChange) : Finset Str × Nat :=
  (match extension file.filename with
    | some language =>
        if language ∈ neededLanguages then insert language st.1 else st.1
    | none => st.1,
   st.2 + file.additions)

/-- Commit classification (main.rs lines 142-157): starting from an empty set
and zero lines, fold the per-file loop over the commit's file list; a commit
with absent file detail (`commit.files == None`) skips the loop entirely. -/
def classify (neededLanguages : Finset Str)
    (files : Option (List CommitFileChange)) : ClassifiedCommit :=
  match files with
  | none => ⟨∅, 0⟩
  | some fs =>
    let st := fs.foldl (classifyStep neededLanguages) (∅, 0)
    ⟨st.1, st.2⟩

/-- The per-bucket `Stats` struct (main.rs lines 50-54). -/
structure Stats where
  languages : Finset Str
  commits : Nat
  lines : Nat
deriving DecidableEq

/-- The shared `HashMap<String, Stats>` (main.rs line 82), modeled as an
association list with distinct keys. -/
abbrev StatsTable : Type := List (Str × Stats)

def lookupStats : StatsTable → Str → Option Stats
  | [], _ => none
  | (k, v) :: rest, b => if k = b then some v else lookupStats rest b

/-- The `and_modify` closure (main.rs lines 163-170): union in the commit's
languages, bump the commit counter, add the commit's lines. -/
def applyCommit (s : Stats) (c : ClassifiedCommit) : Stats :=
  ⟨s.languages ∪ c.matchedLanguages, s.commits + 1, s.lines + c.linesAdded⟩

/-- The `or_insert` value (main.rs lines 171-175): a fresh entry seeded with
the single commit's contribution. -/
def seedStats (c : ClassifiedCommit) : Stats :=
  ⟨c.matchedLanguages, 1, c.linesAdded⟩

/-- `stats.entry(experience).and_modify(..).or_insert(..)` (main.rs lines
159-175) on the association-list model of the map. -/
def merge : StatsTable → Str → ClassifiedCommit → StatsTable
  | [], bucket, c => [(bucket, seedStats c)]
  | (k, v) :: rest, bucket, c =>
    if k = bucket then (k, applyCommit v c) :: rest
    else (k, v) :: merge rest bucket c

/-- A sequence of merge operations applied in order. -/
def mergeAll (t : StatsTable) (ops : List (Str × ClassifiedCommit)) : StatsTable :=
  ops.foldl (fun t2 op => merge t2 op.1 op.2) t

/-- The raw `experience` table entry as it appears in Stats.toml, before the
repository paths are parsed. -/
structure RawExperience where
  repositories : List Str

/-- The raw configuration document, before deserialization validates
repository paths. -/
structure RawConfig where
  author : Str
  languages : List Str
  experience : List (Str × RawExperience)

/-- A bucket of the parsed configuration (the `Experience` struct,
main.rs lines 38-41). -/
structure Experience where
  repositories : List RepositoryPath

/-- The parsed configuration (the `NeededStats` struct, main.rs lines 43-48). -/
structure NeededStats where
  author : Str
  languages : Finset Str
  experience : List (Str × Experience)

/-- Serde parsing of one bucket's repository list: every string goes through
`RepositoryPath::try_from`, and the first failure fails the whole load. -/
def parsePaths : List Str → Except RunError (List RepositoryPath)
  | [] => .ok []
  | s :: rest =>
    match RepositoryPath.tryFrom s with
    | .error e => .error e
    | .ok p =>
      match parsePaths rest with
      | .error e => .error e
      | .ok ps => .ok (p :: ps)

/-- Serde parsing of the experience table: each bucket's repository strings are
parsed; the first failure fails the whole load. -/
def parseExperience :
    List (Str × RawExperience) → Except RunError (List (Str × Experience))
  | [] => .ok []
  | (name, raw) :: rest =>
    match parsePaths raw.repositories with
    | .error e => .error e
    | .ok ps =>
      match parseExperience rest with
      | .error e => .error e
      | .ok exps => .ok ((name, ⟨ps⟩) :: exps)

/-- `toml::from_str::<NeededStats>` (main.rs line 58): deserializes the
document, sending every repository-path string through
`RepositoryPath::try_from`; any malformed path fails the whole load before
anything else runs. -/
def loadConfig (raw : RawConfig) : Except RunError NeededStats :=
  match parseExperience raw.experience with
  | .error e => .error e
  | .ok exps => .ok ⟨raw.author, raw.languages.foldl (fun s l => insert l s) ∅, exps⟩

/-- All repository-path strings appearing anywhere in a raw configuration. -/
def rawRepoStrings (raw : RawConfig) : List Str :=
  (raw.experience.map fun pr => pr.2.repositories).flatten

/-- Per-commit data the provider returns: the optional file-change list
(`RepoCommit.files`); `none` models a commit whose file detail the API did not
supply. -/
structure CommitData where
  files : Option (List CommitFileChange)

/-- Abstraction of the GitHub provider for one repository: either a fatal API
error (commit listing, pagination or per-commit fetch) or the author-filtered
commit list with per-commit file detail, in the order the API yields it. -/
abbrev Provider : Type := RepositoryPath → Except RunError (List CommitData)

/-- The body of the per-repository loop (main.rs lines 116-186): fetch the
commit list, then classify and merge each commit in order; any provider error
aborts. -/
def processRepo (needed : Finset Str) (bucket : Str) (fetch : Provider)
    (t : StatsTable) (rp : RepositoryPath) : Except RunError StatsTable :=
  match fetch rp with
  | .error e => .error e
  | .ok commits =>
    .ok (commits.foldl (fun t2 cd => merge t2 bucket (classify needed cd.files)) t)

/-- One bucket's task (main.rs lines 107-191): its repositories are scanned
sequentially; the first error aborts the task. -/
def processBucket (needed : Finset Str) (bucket : Str) (fetch : Provider) :
    StatsTable → List RepositoryPath → Except RunError StatsTable
  | t, [] => .ok t
  | t, rp :: rest =>
    match processRepo needed bucket fetch t rp with
    | .error e => .error e
    | .ok t2 => processBucket needed bucket fetch t2 rest

/-- All bucket tasks (main.rs lines 96-198).  The concurrent `JoinSet` tasks
are modeled as a sequential fold: each task merges only under its own bucket
key, and `join_next` propagates the first task error, aborting the run. -/
def processAll (needed : Finset Str) (fetch : Provider) :
    StatsTable → List (Str × Experience) → Except RunError StatsTable
  | t, [] => .ok t
  | t, (bucket, exp) :: rest =>
    match processBucket needed bucket fetch t exp.repositories with
    | .error e => .error e
    | .ok t2 => processAll needed fetch t2 rest

/-- `try_main` (main.rs lines 56-246): read and parse Stats.toml, obtain the
credential from the keyring (after the parse, before any network call), then
scan every bucket and aggregate into the shared table.  Each `?` in the source
is an early `.error` return here. -/
def tryMain (rawConfig : Except RunError RawConfig)
    (credential : Except RunError Str) (fetch : Provider) :
    Except RunError StatsTable :=
  match rawConfig with
  | .error e => .error e
  | .ok raw =>
    match loadConfig raw with
    | .error e => .error e
    | .ok needed =>
      match credential with
      | .error e => .error e
      | .ok _pat => processAll needed.languages fetch [] needed.experience

/-- The observable outcome of a run: the per-bucket report printed on success
(`none` when no report is printed), the stderr error messages, and the process
exit status. -/
structure RunOutcome where
  report : Option StatsTable
  errorMessages : List RunError
  exitCode : Nat
deriving DecidableEq

/-- `main` (main.rs lines 248-253): on success the per-bucket report is
printed and the process ends with status 0; on error a single message is
printed to stderr and the process still ends normally with status 0, because
`main` returns `()` after the `eprintln!` with no failure exit. -/
def mainModel (rawConfig : Except RunError RawConfig)
    (credential : Except RunError Str) (fetch : Provider) : RunOutcome :=
  match tryMain rawConfig credential fetch with
  | .ok table => ⟨some table, [], 0⟩
  | .error e => ⟨none, [e], 0⟩

/-! Concrete values used by witnesses, counterexamples and the end-to-end
scenarios of the specification. -/

def goS : Str := ['g', 'o']

def txtS : Str := ['t', 'x', 't']

def backendS : Str := ['b', 'a', 'c', 'k', 'e', 'n', 'd']

def aliceS : Str := ['a', 'l', 'i', 'c', 'e']

def mainGoS : Str := ['m', 'a', 'i', 'n', '.', 'g', 'o']

def readmeS : Str := ['R', 'E', 'A', 'D', 'M', 'E']

def gitignoreS : Str := ['g', 'i', 't', 'i', 'g', 'n', 'o', 'r', 'e']

def dotGitignoreS : Str := '.' :: gitignoreS

def owneronlyS : Str := ['o', 'w', 'n', 'e', 'r', 'o', 'n', 'l', 'y']

def repoOkS : Str := ['o', '/', 'r']

def scenario1Files : List CommitFileChange := [⟨mainGoS, 10⟩, ⟨readmeS, 2⟩]

/-- Scenario 1 of the specification: one bucket "backend", one repository,
author "alice", languages of interest {"go"}. -/
def rawScenario1 : RawConfig := ⟨aliceS, [goS], [(backendS, ⟨[repoOkS]⟩)]⟩

/-- Scenario 1 provider: two commits, the first with files
[("main.go", 10), ("README", 2)], the second with no file detail. -/
def scenario1Fetch : Provider := fun _ => .ok [⟨some scenario1Files⟩, ⟨none⟩]

/-- Scenario 2 of the specification: a repository-path string "owneronly"
with no slash in the configuration. -/
def rawScenario2 : RawConfig := ⟨aliceS, [goS], [(backendS, ⟨[owneronlyS]⟩)]⟩

def emptyFetch : Provider := fun _ => .ok []

def commitA : ClassifiedCommit := ⟨{goS}, 5⟩

def commitB : ClassifiedCommit := ⟨{txtS}, 7⟩

def statsA : Stats := ⟨{goS}, 3, 30⟩

/-! Helper lemmas shared by the claim theorems. -/

theorem splitOnce_none_iff (c : Char) (s : Str) : splitOnce c s = none ↔ c ∉ s := by
  induction s with
  | nil => simp [splitOnce]
  | cons x xs ih =>
    by_cases hx : x = c
    · subst hx
      simp [splitOnce]
    · simp only [splitOnce, if_neg hx, Option.map_eq_none', ih, List.mem_cons]
      constructor
      · intro h hc
        rcases hc with hc | hc
        · exact hx hc.symm
        · exact h hc
      · intro h hc
        exact h (Or.inr hc)

theorem splitOnce_some_iff (c : Char) (s b a : Str) :
    splitOnce c s = some (b, a) ↔ s = b ++ c :: a ∧ c ∉ b := by
  induction s generalizing b with
  | nil =>
    constructor
    · intro h
      simp [splitOnce] at h
    · rintro ⟨h, -⟩
      exact absurd h (by simp)
  | cons x xs ih =>
    by_cases hx : x = c
    · subst hx
      constructor
      · intro h
        simp only [splitOnce, if_pos rfl, Option.some.injEq, Prod.mk.injEq] at h
        obtain ⟨rfl, rfl⟩ := h
        exact ⟨rfl, by simp⟩
      · rintro ⟨heq, hnb⟩
        cases b with
        | nil =>
          simp only [List.nil_append, List.cons.injEq] at heq
          rw [heq.2]
          simp [splitOnce]
        | cons y b2 =>
          simp only [List.cons_append, List.cons.injEq] at heq
          exact absurd (List.mem_cons.mpr (Or.inl heq.1)) hnb
    · constructor
      · intro h
        simp only [splitOnce, if_neg hx] at h
        cases hsp : splitOnce c xs with
        | none =>
          rw [hsp] at h
          simp at h
        | some p =>
          obtain ⟨b2, a2⟩ := p
          rw [hsp] at h
          simp only [Option.map_some', Option.some.injEq, Prod.mk.injEq] at h
          obtain ⟨rfl, rfl⟩ := h
          have h2 := (ih b2).mp hsp
          refine ⟨by simp [h2.1], ?_⟩
          intro hc
          rcases List.mem_cons.mp hc with hc | hc
          · exact hx hc.symm
          · exact h2.2 hc
      · rintro ⟨heq, hnb⟩
        cases b with
        | nil =>
          simp only [List.nil_append, List.cons.injEq] at heq
          exact absurd heq.1 hx
        | cons y b2 =>
          simp only [List.cons_append, List.cons.injEq] at heq
          obtain ⟨rfl, hxs⟩ := heq
          have hnb2 : c ∉ b2 := fun hc => hnb (List.mem_cons.mpr (Or.inr hc))
          have h3 := (ih b2).mpr ⟨hxs, hnb2⟩
          simp [splitOnce, if_neg hx, h3]

theorem tryFrom_ok_iff (s : Str) :
    (∃ p, RepositoryPath.tryFrom s = .ok p) ↔ '/' ∈ s := by
  cases h : splitOnce '/' s with
  | none =>
    simp only [RepositoryPath.tryFrom, h]
    constructor
    · rintro ⟨p, hp⟩
      cases hp
    · intro hm
      exact absurd ((splitOnce_none_iff '/' s).mp h) (by simp [hm])
  | some p =>
    obtain ⟨o, r⟩ := p
    simp only [RepositoryPath.tryFrom, h]
    constructor
    · intro
      have h2 := (splitOnce_some_iff '/' s o r).mp h
      rw [h2.1]
      simp
    · intro
      exact ⟨⟨o, r⟩, rfl⟩

theorem tryFrom_no_slash (s : Str) (h : '/' ∉ s) :
    RepositoryPath.tryFrom s = .error .config := by
  have h2 := (splitOnce_none_iff '/' s).mpr h
  simp [RepositoryPath.tryFrom, h2]

theorem tryFrom_error_config (s : Str) (e : RunError)
    (h : RepositoryPath.tryFrom s = .error e) : e = .config := by
  unfold RepositoryPath.tryFrom at h
  cases hsp : splitOnce '/' s with
  | none =>
    rw [hsp] at h
    simp only at h
    exact (Except.error.inj h).symm
  | some p =>
    obtain ⟨o, r⟩ := p
    rw [hsp] at h
    simp at h

theorem classifyStep_snd (needed : Finset Str) (st : Finset Str × Nat)
    (f : CommitFileChange) : (classifyStep needed st f).2 = st.2 + f.additions := rfl

theorem classifyStep_fst_mem (needed : Finset Str) (st : Finset Str × Nat)
    (f : CommitFileChange) (e : Str) :
    e ∈ (classifyStep needed st f).1 ↔
      e ∈ st.1 ∨ (e ∈ needed ∧ extension f.filename = some e) := by
  unfold classifyStep
  cases h : extension f.filename with
  | none => simp
  | some l =>
    by_cases hl : l ∈ needed
    · simp only [hl, if_true, Finset.mem_insert, Option.some.injEq]
      constructor
      · rintro (rfl | he)
        · exact Or.inr ⟨hl, rfl⟩
        · exact Or.inl he
      · rintro (he | ⟨hn, rfl⟩)
        · exact Or.inr he
        · exact Or.inl rfl
    · simp only [hl, if_false, Option.some.injEq]
      constructor
      · exact Or.inl
      · rintro (he | ⟨hn, rfl⟩)
        · exact he
        · exact absurd hn hl

theorem classify_foldl_snd (needed : Finset Str) (files : List CommitFileChange) :
    ∀ st : Finset Str × Nat,
      (files.foldl (classifyStep needed) st).2 =
        st.2 + (files.map fun f => f.additions).sum := by
  induction files with
  | nil =>
    intro st
    simp
  | cons f fs ih =>
    intro st
    rw [List.foldl_cons, ih, classifyStep_snd]
    simp [Nat.add_assoc]

theorem classify_foldl_fst (needed : Finset Str) (files : List CommitFileChange) :
    ∀ (st : Finset Str × Nat) (e : Str),
      e ∈ (files.foldl (classifyStep needed) st).1 ↔
        e ∈ st.1 ∨ (e ∈ needed ∧ ∃ f ∈ files, extension f.filename = some e) := by
  induction files with
  | nil =>
    intro st e
    simp
  | cons f fs ih =>
    intro st e
    rw [List.foldl_cons, ih, classifyStep_fst_mem]
    constructor
    · rintro ((he | ⟨hn, hf⟩) | ⟨hn, g, hg, hge⟩)
      · exact Or.inl he
      · exact Or.inr ⟨hn, f, List.mem_cons_self f fs, hf⟩
      · exact Or.inr ⟨hn, g, List.mem_cons.mpr (Or.inr hg), hge⟩
    · rintro (he | ⟨hn, g, hg, hge⟩)
      · exact Or.inl (Or.inl he)
      · rcases List.mem_cons.mp hg with rfl | hg2
        · exact Or.inl (Or.inr ⟨hn, hge⟩)
        · exact Or.inr ⟨hn, g, hg2, hge⟩

theorem lookup_merge_absent (t : StatsTable) (b : Str) (c : ClassifiedCommit)
    (h : lookupStats t b = none) :
    lookupStats (merge t b c) b = some (seedStats c) := by
  induction t with
  | nil => simp [merge, lookupStats]
  | cons kv rest ih =>
    obtain ⟨k, v⟩ := kv
    by_cases hk : k = b
    · rw [lookupStats, if_pos hk] at h
      cases h
    · rw [lookupStats, if_neg hk] at h
      simp only [merge, if_neg hk]
      rw [lookupStats, if_neg hk]
      exact ih h

theorem lookup_merge_present (t : StatsTable) (b : Str) (c : ClassifiedCommit)
    (s : Stats) (h : lookupStats t b = some s) :
    lookupStats (merge t b c) b = some (applyCommit s c) := by
  induction t with
  | nil => simp [lookupStats] at h
  | cons kv rest ih =>
    obtain ⟨k, v⟩ := kv
    by_cases hk : k = b
    · rw [lookupStats, if_pos hk] at h
      obtain rfl := Option.some.inj h
      simp only [merge, if_pos hk]
      rw [lookupStats, if_pos hk]
    · rw [lookupStats, if_neg hk] at h
      simp only [merge, if_neg hk]
      rw [lookupStats, if_neg hk]
      exact ih h

theorem lookup_merge_other (t : StatsTable) (b bucket : Str) (c : ClassifiedCommit)
    (h : b ≠ bucket) :
    lookupStats (merge t bucket c) b = lookupStats t b := by
  induction t with
  | nil =>
    simp only [merge, lookupStats]
    rw [if_neg fun hh => h hh.symm]
  | cons kv rest ih =>
    obtain ⟨k, v⟩ := kv
    by_cases hk : k = bucket
    · have hkb : ¬ k = b := fun hh => h (hh.symm.trans hk)
      simp only [merge, if_pos hk]
      rw [lookupStats, if_neg hkb, lookupStats, if_neg hkb]
    · simp only [merge, if_neg hk]
      by_cases hkb : k = b
      · rw [lookupStats, if_pos hkb, lookupStats, if_pos hkb]
      · rw [lookupStats, if_neg hkb, lookupStats, if_neg hkb]
        exact ih

theorem parsePaths_error_of_bad (l : List Str) (bad : Str)
    (h1 : bad ∈ l) (h2 : '/' ∉ bad) : parsePaths l = .error .config := by
  induction l with
  | nil => cases h1
  | cons s rest ih =>
    rcases List.mem_cons.mp h1 with rfl | hm
    · simp [parsePaths, tryFrom_no_slash bad h2]
    · cases htf : RepositoryPath.tryFrom s with
      | error e =>
        obtain rfl := tryFrom_error_config s e htf
        simp [parsePaths, htf]
      | ok p =>
        simp [parsePaths, htf, ih hm]

theorem parsePaths_error_config (l : List Str) (e : RunError)
    (h : parsePaths l = .error e) : e = .config := by
  induction l with
  | nil => simp [parsePaths] at h
  | cons s rest ih =>
    cases htf : RepositoryPath.tryFrom s with
    | error e2 =>
      obtain rfl := tryFrom_error_config s e2 htf
      simp only [parsePaths, htf] at h
      exact (Except.error.inj h).symm
    | ok p =>
      cases hpp : parsePaths rest with
      | error e2 =>
        simp only [parsePaths, htf, hpp] at h
        obtain rfl := Except.error.inj h
        exact ih hpp
      | ok ps => simp [parsePaths, htf, hpp] at h

theorem parseExperience_error_of_bad (l : List (Str × RawExperience)) (bad : Str)
    (h1 : ∃ pr ∈ l, bad ∈ pr.2.repositories) (h2 : '/' ∉ bad) :
    parseExperience l = .error .config := by
  induction l with
  | nil =>
    obtain ⟨pr, hpr, -⟩ := h1
    cases hpr
  | cons p rest ih =>
    obtain ⟨pr, hpr, hbad⟩ := h1
    obtain ⟨name, raw⟩ := p
    rcases List.mem_cons.mp hpr with rfl | hm
    · simp [parseExperience, parsePaths_error_of_bad _ bad hbad h2]
    · cases hpp : parsePaths raw.repositories with
      | error e =>
        obtain rfl := parsePaths_error_config _ e hpp
        simp [parseExperience, hpp]
      | ok ps =>
        simp [parseExperience, hpp, ih ⟨pr, hm, hbad⟩]

theorem loadConfig_error_of_bad (raw : RawConfig) (bad : Str)
    (h1 : bad ∈ rawRepoStrings raw) (h2 : '/' ∉ bad) :
    loadConfig raw = .error .config := by
  have hex : ∃ pr ∈ raw.experience, bad ∈ pr.2.repositories := by
    simp only [rawRepoStrings, List.mem_flatten, List.mem_map] at h1
    obtain ⟨l, ⟨pr, hpr, rfl⟩, hbad⟩ := h1
    exact ⟨pr, hpr, hbad⟩
  simp [loadConfig, parseExperience_error_of_bad raw.experience bad hex h2]

/-! Claim theorems. -/

/-- Claim C1 counterexample: the classifier does not compute the extension as
the substring after the last `.` in the filename.  For the file ".gitignore"
that substring is "gitignore"; with languagesOfInterest = {"gitignore"} the
claim predicts a matched-language set of {"gitignore"}, but the source's
`Path::extension` treats a leading dot as starting no extension, so the
classifier produces the empty set. -/
theorem C1_counterexample :
    extensionSpec dotGitignoreS = some gitignoreS
    ∧ gitignoreS ∈ ({gitignoreS} : Finset Str)
    ∧ (classify {gitignoreS} (some [⟨dotGitignoreS, 3⟩])).matchedLanguages = ∅ :=
  ⟨by decide, by decide, by decide⟩

/-- Claim C1 (amended): for every commit file list, a language `e` is in the
matched-language set exactly when `e` is in languagesOfInterest and some file's
extension — computed by path semantics, i.e. the substring after the last `.`
of the filename's final path component, where a leading `.` of the component
does not begin an extension — equals `e`; a file with no such extension
contributes no language, and every file's added lines are counted. -/
theorem C1_extension_attribution (needed : Finset Str) (files : List CommitFileChange) :
    (∀ e, e ∈ (classify needed (some files)).matchedLanguages ↔
        e ∈ needed ∧ ∃ f ∈ files, extension f.filename = some e)
    ∧ (classify needed (some files)).linesAdded = (files.map fun f => f.additions).sum := by
  constructor
  · intro e
    have h := classify_foldl_fst needed files (∅, 0) e
    have h2 : e ∈ (classify needed (some files)).matchedLanguages ↔
        e ∈ (files.foldl (classifyStep needed) (∅, 0)).1 := Iff.rfl
    rw [h2, h]
    simp
  · have h : (classify needed (some files)).linesAdded =
        (files.foldl (classifyStep needed) (∅, 0)).2 := rfl
    rw [h, classify_foldl_snd]
    simp

/-- Claim C2: merging a classified commit into the stats table creates a fresh
entry seeded with the commit's languages, count 1 and its lines when the bucket
is absent, and otherwise unions the languages, bumps the counter by exactly 1
and adds the commit's lines. -/
theorem C2_merge_cases (t : StatsTable) (b : Str) (c : ClassifiedCommit) :
    (lookupStats t b = none →
      lookupStats (merge t b c) b = some ⟨c.matchedLanguages, 1, c.linesAdded⟩)
    ∧ ∀ s, lookupStats t b = some s →
      lookupStats (merge t b c) b =
        some ⟨s.languages ∪ c.matchedLanguages, s.commits + 1, s.lines + c.linesAdded⟩ :=
  ⟨fun h => lookup_merge_absent t b c h,
   fun s h => lookup_merge_present t b c s h⟩

/-- Witness for the C2 theorem at concrete inputs: an absent bucket and a
present bucket. -/
theorem C2_witness :
    lookupStats (merge [] goS commitA) goS =
      some ⟨commitA.matchedLanguages, 1, commitA.linesAdded⟩
    ∧ lookupStats (merge [(goS, statsA)] goS commitA) goS =
      some ⟨statsA.languages ∪ commitA.matchedLanguages, statsA.commits + 1,
        statsA.lines + commitA.linesAdded⟩ :=
  ⟨(C2_merge_cases [] goS commitA).1 rfl,
   (C2_merge_cases [(goS, statsA)] goS commitA).2 statsA (by decide)⟩

/-- Claim C3: the classified commit's linesAdded is the sum of every file's
added-line count, independent of language filtering, and a language outside
languagesOfInterest never appears in the matched set. -/
theorem C3_lines_sum_and_filtering (needed : Finset Str) (files : List CommitFileChange) :
    (classify needed (some files)).linesAdded = (files.map fun f => f.additions).sum
    ∧ ∀ e, e ∉ needed → e ∉ (classify needed (some files)).matchedLanguages := by
  constructor
  · have h : (classify needed (some files)).linesAdded =
        (files.foldl (classifyStep needed) (∅, 0)).2 := rfl
    rw [h, classify_foldl_snd]
    simp
  · intro e he hmem
    have hm2 : e ∈ (files.foldl (classifyStep needed) (∅, 0)).1 := hmem
    rcases (classify_foldl_fst needed files (∅, 0) e).mp hm2 with h | ⟨hn, -⟩
    · exact absurd h (Finset.not_mem_empty e)
    · exact he hn

/-- Witness for the C3 theorem: for the scenario-1 file list and needed
languages {"go"}, lines are summed over every file and "txt" (not a needed
language) is not matched. -/
theorem C3_witness :
    (classify {goS} (some scenario1Files)).linesAdded =
      (scenario1Files.map fun f => f.additions).sum
    ∧ txtS ∉ (classify {goS} (some scenario1Files)).matchedLanguages :=
  ⟨(C3_lines_sum_and_filtering {goS} scenario1Files).1,
   (C3_lines_sum_and_filtering {goS} scenario1Files).2 txtS (by decide)⟩

/-- Claim C4 counterexample: the missing-file-detail condition is not surfaced
or logged.  The commit loop has no branch that reports the absent case — its
only per-commit effects are the table merge and the run outcome — so the entire
observable run outcome (report, stderr messages, exit status) with a commit
whose file detail is absent is identical to the outcome with a commit whose
file list is present but empty; nothing distinguishes, surfaces or logs the
unavailable detail. -/
theorem C4_counterexample :
    mainModel (.ok rawScenario1) (.ok []) (fun _ => .ok [⟨none⟩]) =
      mainModel (.ok rawScenario1) (.ok []) (fun _ => .ok [⟨some []⟩]) := by
  decide

/-- Claim C4 (amended): for every commit whose file-change detail is absent,
classification yields an empty matched-language set and zero lines; the
condition is non-fatal but not surfaced or logged, and the commit still
increments the bucket's commit counter by exactly 1 when merged, so in
scenario 1 the bucket ends with languages {"go"}, commits 2, lines 12. -/
theorem C4_absent_detail_nonfatal (needed : Finset Str) (t : StatsTable)
    (b : Str) (s : Stats) (h : lookupStats t b = some s) :
    classify needed none = ⟨∅, 0⟩
    ∧ lookupStats (merge t b (classify needed none)) b =
        some ⟨s.languages, s.commits + 1, s.lines⟩
    ∧ mainModel (.ok rawScenario1) (.ok []) scenario1Fetch =
        ⟨some [(backendS, ⟨{goS}, 2, 12⟩)], [], 0⟩ := by
  refine ⟨rfl, ?_, by decide⟩
  rw [lookup_merge_present t b (classify needed none) s h]
  simp [applyCommit, classify]

/-- Witness for the C4 theorem: a bucket already holding stats, merged with a
no-detail commit. -/
theorem C4_witness :
    classify ({goS} : Finset Str) none = ⟨∅, 0⟩
    ∧ lookupStats (merge [(backendS, statsA)] backendS (classify {goS} none)) backendS =
        some ⟨statsA.languages, statsA.commits + 1, statsA.lines⟩
    ∧ mainModel (.ok rawScenario1) (.ok []) scenario1Fetch =
        ⟨some [(backendS, ⟨{goS}, 2, 12⟩)], [], 0⟩ :=
  C4_absent_detail_nonfatal {goS} [(backendS, statsA)] backendS statsA (by decide)

/-- Claim C5 counterexample: the program does not exit with failure on a fatal
error.  On a configuration error the run prints its single error message but
the process exit status is 0 (success), because `main` only prints the error
and returns normally. -/
theorem C5_counterexample :
    (mainModel (.error .config) (.ok []) emptyFetch).errorMessages = [.config]
    ∧ (mainModel (.error .config) (.ok []) emptyFetch).exitCode = 0 :=
  ⟨rfl, rfl⟩

/-- Claim C5 (amended): every fatal error (configuration, credential or
provider) unwinds to the top level, where a single error message is printed
and no per-bucket report is produced — an all-or-nothing run; the process
nevertheless terminates with exit status 0, since `main` swallows the error
after printing it. -/
theorem C5_fatal_no_report (rc : Except RunError RawConfig)
    (cred : Except RunError Str) (fetch : Provider) (e : RunError) :
    (tryMain rc cred fetch = .error e →
      mainModel rc cred fetch = ⟨none, [e], 0⟩)
    ∧ (rc = .error e → tryMain rc cred fetch = .error e)
    ∧ (∀ raw, rc = .ok raw → loadConfig raw = .error e →
        tryMain rc cred fetch = .error e)
    ∧ (∀ raw needed, rc = .ok raw → loadConfig raw = .ok needed →
        cred = .error e → tryMain rc cred fetch = .error e)
    ∧ (∀ raw needed pat, rc = .ok raw → loadConfig raw = .ok needed →
        cred = .ok pat →
        processAll needed.languages fetch [] needed.experience = .error e →
        tryMain rc cred fetch = .error e) := by
  refine ⟨?_, ?_, ?_, ?_, ?_⟩
  · intro h
    simp [mainModel, h]
  · rintro rfl
    rfl
  · rintro raw rfl hl
    simp [tryMain, hl]
  · rintro raw needed rfl hl rfl
    simp [tryMain, hl]
  · rintro raw needed pat rfl hl rfl hp
    simp [tryMain, hl, hp]

/-- Witness for the C5 theorem: a configuration error propagates to the top
and the outcome carries one message, no report and exit status 0. -/
theorem C5_witness :
    tryMain (.error .config) (.ok []) emptyFetch = .error .config
    ∧ mainModel (.error .config) (.ok []) emptyFetch = ⟨none, [.config], 0⟩ := by
  have h := C5_fatal_no_report (.error .config) (.ok []) emptyFetch .config
  exact ⟨h.2.1 rfl, h.1 (h.2.1 rfl)⟩

/-- Claim C6: parsing a repository-path string fails exactly when it contains
no slash, and a configuration containing such a malformed string makes the
whole run fail with the configuration error — with an outcome that is the same
for every provider, i.e. before any network activity. -/
theorem C6_malformed_path_fails_before_network (s bad : Str) (raw : RawConfig)
    (h1 : bad ∈ rawRepoStrings raw) (h2 : '/' ∉ bad) :
    ((∃ p, RepositoryPath.tryFrom s = .ok p) ↔ '/' ∈ s)
    ∧ ∀ cred fetch, mainModel (.ok raw) cred fetch = ⟨none, [RunError.config], 0⟩ := by
  refine ⟨tryFrom_ok_iff s, ?_⟩
  intro cred fetch
  have hload := loadConfig_error_of_bad raw bad h1 h2
  simp [mainModel, tryMain, hload]

/-- Witness for the C6 theorem: scenario 2, the repository-path string
"owneronly" with no slash. -/
theorem C6_witness :
    owneronlyS ∈ rawRepoStrings rawScenario2
    ∧ '/' ∉ owneronlyS
    ∧ ¬ (∃ p, RepositoryPath.tryFrom owneronlyS = .ok p)
    ∧ mainModel (.ok rawScenario2) (.ok []) emptyFetch =
        ⟨none, [RunError.config], 0⟩ := by
  have h := C6_malformed_path_fails_before_network owneronlyS owneronlyS rawScenario2
    (by decide) (by decide)
  refine ⟨by decide, by decide, ?_, h.2 (.ok []) emptyFetch⟩
  intro hex
  exact absurd (h.1.mp hex) (by decide)

/-- Claim C7: across any sequence of merges, an entry exists for a bucket name
exactly when it existed before or some merge targeted that bucket (so starting
from the empty table, iff at least one commit was merged for it); no merge
removes or resets an entry, an existing entry's language set only grows, and
its commit and line counters are monotonically non-decreasing. -/
theorem C7_table_invariants (ops : List (Str × ClassifiedCommit)) :
    ∀ (t : StatsTable) (b : Str),
      ((lookupStats (mergeAll t ops) b).isSome ↔
        (lookupStats t b).isSome ∨ b ∈ ops.map Prod.fst)
      ∧ ∀ s, lookupStats t b = some s →
          ∃ s2, lookupStats (mergeAll t ops) b = some s2 ∧
            s.languages ⊆ s2.languages ∧ s.commits ≤ s2.commits ∧ s.lines ≤ s2.lines := by
  induction ops with
  | nil =>
    intro t b
    constructor
    · simp [mergeAll]
    · intro s hs
      exact ⟨s, by simpa [mergeAll] using hs, Finset.Subset.refl _,
        Nat.le_refl _, Nat.le_refl _⟩
  | cons op rest ih =>
    intro t b
    obtain ⟨bk, c⟩ := op
    have hstep := ih (merge t bk c) b
    have hall : mergeAll t ((bk, c) :: rest) = mergeAll (merge t bk c) rest := rfl
    constructor
    · rw [hall, hstep.1]
      by_cases hb : b = bk
      · subst hb
        have hx : (lookupStats (merge t b c) b).isSome := by
          cases hs : lookupStats t b with
          | none => rw [lookup_merge_absent t b c hs]; rfl
          | some s => rw [lookup_merge_present t b c s hs]; rfl
        constructor
        · intro _
          refine Or.inr ?_
          rw [List.map_cons]
          exact List.mem_cons_self _ _
        · intro _
          exact Or.inl hx
      · rw [lookup_merge_other t b bk c hb, List.map_cons]
        constructor
        · rintro (h1 | h1)
          · exact Or.inl h1
          · exact Or.inr (List.mem_cons.mpr (Or.inr h1))
        · rintro (h1 | h1)
          · exact Or.inl h1
          · rcases List.mem_cons.mp h1 with heq | h1
            · exact absurd heq hb
            · exact Or.inr h1
    · intro s hs
      by_cases hb : b = bk
      · subst hb
        have h2 := lookup_merge_present t b c s hs
        obtain ⟨s2, hs2, hsub, hc, hl⟩ := hstep.2 (applyCommit s c) h2
        simp only [applyCommit] at hsub hc hl
        rw [hall]
        refine ⟨s2, hs2, ?_, ?_, ?_⟩
        · exact Finset.Subset.trans Finset.subset_union_left hsub
        · exact Nat.le_trans (Nat.le_succ _) hc
        · exact Nat.le_trans (Nat.le_add_right _ _) hl
      · have h2 : lookupStats (merge t bk c) b = some s := by
          rw [lookup_merge_other t b bk c hb]
          exact hs
        obtain ⟨s2, hs2, hsub, hc, hl⟩ := hstep.2 s h2
        exact ⟨s2, by rw [hall]; exact hs2, hsub, hc, hl⟩

/-- Witness for the C7 theorem: one merge into an empty table creates the
entry, and a merge over a table already holding an entry only grows it. -/
theorem C7_witness :
    ((lookupStats (mergeAll [] [(goS, commitA)]) goS).isSome ↔
      (lookupStats ([] : StatsTable) goS).isSome ∨ goS ∈ [(goS, commitA)].map Prod.fst)
    ∧ ∃ s2, lookupStats (mergeAll [(goS, statsA)] [(goS, commitA)]) goS = some s2 ∧
        statsA.languages ⊆ s2.languages ∧ statsA.commits ≤ s2.commits ∧
        statsA.lines ≤ s2.lines :=
  ⟨(C7_table_invariants [(goS, commitA)] [] goS).1,
   (C7_table_invariants [(goS, commitA)] [(goS, statsA)] goS).2 statsA (by decide)⟩

/-- Claim C8: merging two classified commits into a bucket with no existing
entry is commutative — the final table (hence the bucket's languages, commit
count and lines) is the same in either order. -/
theorem C8_merge_comm_fresh (t : StatsTable) (b : Str) (ca cb : ClassifiedCommit)
    (h : lookupStats t b = none) :
    merge (merge t b ca) b cb = merge (merge t b cb) b ca := by
  induction t with
  | nil =>
    have h2 : applyCommit (seedStats ca) cb = applyCommit (seedStats cb) ca := by
      simp [applyCommit, seedStats, Finset.union_comm, Nat.add_comm]
    simp [merge, h2]
  | cons kv rest ih =>
    obtain ⟨k, v⟩ := kv
    have hk : ¬ k = b := by
      intro hkb
      rw [lookupStats, if_pos hkb] at h
      cases h
    rw [lookupStats, if_neg hk] at h
    simp only [merge, if_neg hk]
    rw [ih h]

/-- Witness for the C8 theorem: two concrete commits merged into an empty
table in both orders. -/
theorem C8_witness :
    merge (merge [] goS commitA) goS commitB = merge (merge [] goS commitB) goS commitA :=
  C8_merge_comm_fresh [] goS commitA commitB rfl

/-- Claim C10: for every string containing a slash, RepositoryPath parsing
succeeds by splitting at the FIRST slash: the owner is the (possibly empty)
prefix before it and the repository name is everything after it. -/
theorem C10_split_at_first_slash (s : Str) (h : '/' ∈ s) :
    ∃ owner repository, RepositoryPath.tryFrom s = .ok ⟨owner, repository⟩
      ∧ s = owner ++ '/' :: repository ∧ '/' ∉ owner := by
  cases hsp : splitOnce '/' s with
  | none => exact absurd h ((splitOnce_none_iff '/' s).mp hsp)
  | some p =>
    obtain ⟨o, r⟩ := p
    have h2 := (splitOnce_some_iff '/' s o r).mp hsp
    exact ⟨o, r, by simp [RepositoryPath.tryFrom, hsp], h2.1, h2.2⟩

/-- Witness for the C10 theorem at the string "a/b/c": parsing succeeds with
owner "a" and repository "b/c" (the split is at the first slash). -/
theorem C10_witness :
    ('/' ∈ (['a', '/', 'b', '/', 'c'] : Str))
    ∧ ∃ owner repository,
        RepositoryPath.tryFrom ['a', '/', 'b', '/', 'c'] = .ok ⟨owner, repository⟩
          ∧ (['a', '/', 'b', '/', 'c'] : Str) = owner ++ '/' :: repository
          ∧ '/' ∉ owner :=
  ⟨by decide, C10_split_at_first_slash ['a', '/', 'b', '/', 'c'] (by decide)⟩
